import Mathlib

/-!
Verification development for the AcousticBEM repository.

The repository's packaged sources contain the packaging script
`abem/setup.py`; it is embedded directly below.  The numerical core (kernel
evaluation, quadrature, system assembly, linear solve, field evaluation)
described by the design document is not among the packaged sources, so its
operations are modelled from the design document's own words; every such
definition carries a doc comment starting with `Modelled from the spec:`.
-/

/-- A Python setuptools Extension as configured in setup.py: extension name,
C source files, header dependencies, and implementation language. -/
structure PyExtension where
  name : String
  sources : List String
  depends : List String
  language : String

/-- The intops C extension object built at the top of setup.py. -/
def intops : PyExtension :=
  { name := "intops"
    sources := ["intops/intops.c"]
    depends := ["intops/intops.h"]
    language := "c" }

/-- The keyword arguments that setup.py passes to setuptools.setup. -/
structure SetupArgs where
  name : String
  version : String
  description : String
  long_description : String
  long_description_content_type : String
  url : String
  author : String
  license : String
  packages : List String
  zip_safe : Bool
  ext_modules : List PyExtension
  test_suite : String
  data_files : List (String × List String)

/-- A failure while opening or reading README.md in the packaging script. -/
inductive ReadErr where
  | readFailure (msg : String)

/-- The body of setup.py: the script opens README.md, reads its full text into
long_description, and only then calls setup(...) with the configuration
literally written in the file.  A failed open or read propagates as the error
before setup is reached, so no configuration is produced on that path. -/
def runSetupScript (readme : Except ReadErr String) : Except ReadErr SetupArgs :=
  match readme with
  | .error e => .error e
  | .ok long_description =>
      .ok { name := "abem"
            version := "1.0a0"
            description := "Boundary Element Method for Acoustic Simulations"
            long_description := long_description
            long_description_content_type := "text/markdown"
            url := "http://github.com/fjargsto/AcousticBEM"
            author := "Frank Jargstorff"
            license := "GNU General Public License"
            packages := ["abem"]
            zip_safe := false
            ext_modules := [intops]
            test_suite := "tests"
            data_files := [("notebooks",
              ["notebooks/exterior_helmholtz_solver_2d.ipynb",
               "notebooks/exterior_helmholtz_solver_3d.ipynb",
               "notebooks/exterior_helmholtz_solver_rad.ipynb",
               "notebooks/interior_helmholtz_solver_2d.ipynb",
               "notebooks/interior_helmholtz_solver_3d.ipynb",
               "notebooks/interior_helmholtz_solver_rad.ipynb",
               "notebooks/rayleigh_cavity_1.ipynb",
               "notebooks/rayleigh_cavity_2.ipynb",
               "notebooks/rayleigh_solver_3d_disk.ipynb",
               "notebooks/rayleigh_solver_square.ipynb"])] }

/-- Modelled from the spec: the geometry modes of the numerical core (the core
itself is not among the packaged sources; only the packaging script is). -/
inductive Geometry where
  | twoDim
  | threeDim
  | axisymmetric
  | halfSpace

/-- Modelled from the spec: the kernel/quadrature interface of the missing
numerical core.  For a fixed wavenumber and geometry mode, quadG and quadH
integrate the Green function G and its normal derivative over a target element
for a source collocation point (an ordered element pair), while selfG and
selfH are the closed-form singular self-terms of a single element. -/
structure KernelFns (α : Type) where
  quadG : α → α → ℂ
  quadH : α → α → ℂ
  selfG : α → ℂ
  selfH : α → ℂ

/-- Modelled from the spec: a per-element boundary condition — the spec data
model's tagged variant over Dirichlet(pressure), Neumann(velocity) and
Robin/impedance(admittance).  The admittance y couples the solved pair through
the relation velocity = y · pressure. -/
inductive BC where
  | dirichlet (p : ℂ)
  | neumann (v : ℂ)
  | robin (y : ℂ)

/-- Whether a boundary condition is the Robin/impedance variant. -/
def isRobin : BC → Bool
  | .robin _ => true
  | .dirichlet _ => false
  | .neumann _ => false

/-- Modelled from the spec: the assembler's explicit double loop over all N²
ordered element pairs (i, j), row-major and with no symmetry shortcut; the
diagonal pair i = j takes the closed-form singular self-term, every other pair
takes the ordinary quadrature entry. -/
def assembleLoop {α : Type} (quad : α → α → ℂ) (self : α → ℂ)
    (elts : List α) : List (List ℂ) :=
  elts.enum.map fun p =>
    elts.enum.map fun q => if p.1 = q.1 then self p.2 else quad p.2 q.2

/-- Entry lookup in a row-major list of rows; none when out of range. -/
def entryAt (m : List (List ℂ)) (i j : Nat) : Option ℂ :=
  (m[i]?).bind fun row => row[j]?

/-- Modelled from the spec: one kernel evaluation of the assembler, threading
the ambient process state (a counter of kernel evaluations, standing for
whatever hidden mutable state the process might carry). -/
def entryStep {α : Type} (quad : α → α → ℂ) (self : α → ℂ)
    (p q : Nat × α) (s : Nat) : ℂ × Nat :=
  (if p.1 = q.1 then self p.2 else quad p.2 q.2, s + 1)

/-- Modelled from the spec: the assembler's inner loop, filling row i entry by
entry while threading the ambient state. -/
def rowSteps {α : Type} (quad : α → α → ℂ) (self : α → ℂ) (p : Nat × α) :
    List (Nat × α) → Nat → List ℂ × Nat
  | [], s => ([], s)
  | q :: rest, s =>
    let e := entryStep quad self p q s
    let r := rowSteps quad self p rest e.2
    (e.1 :: r.1, r.2)

/-- Modelled from the spec: the assembler's outer loop over rows, threading
the ambient state. -/
def matSteps {α : Type} (quad : α → α → ℂ) (self : α → ℂ)
    (cols : List (Nat × α)) : List (Nat × α) → Nat → List (List ℂ) × Nat
  | [], s => ([], s)
  | p :: rest, s =>
    let r := rowSteps quad self p cols s
    let m := matSteps quad self cols rest r.2
    (r.1 :: m.1, m.2)

/-- Modelled from the spec: assembly of the matrix pair (A, B) for a mesh,
wavenumber and geometry mode, threading the ambient process state s.  A is the
double-layer matrix built from the kernel's normal derivative, B the
single-layer matrix built from G. -/
def assembleAB {α : Type} (K : Geometry → ℂ → KernelFns α) (g : Geometry)
    (k : ℂ) (elts : List α) (s : Nat) :
    (List (List ℂ) × List (List ℂ)) × Nat :=
  let kf := K g k
  let a := matSteps kf.quadH kf.selfH elts.enum elts.enum s
  let b := matSteps kf.quadG kf.selfG elts.enum elts.enum a.2
  ((a.1, b.1), b.2)

theorem rowSteps_fst {α : Type} (quad : α → α → ℂ) (self : α → ℂ)
    (p : Nat × α) (l : List (Nat × α)) (s : Nat) :
    (rowSteps quad self p l s).1
      = l.map fun q => if p.1 = q.1 then self p.2 else quad p.2 q.2 := by
  induction l generalizing s with
  | nil => rfl
  | cons q rest ih => simp [rowSteps, entryStep, ih]

theorem matSteps_fst {α : Type} (quad : α → α → ℂ) (self : α → ℂ)
    (cols l : List (Nat × α)) (s : Nat) :
    (matSteps quad self cols l s).1
      = l.map fun p =>
          cols.map fun q => if p.1 = q.1 then self p.2 else quad p.2 q.2 := by
  induction l generalizing s with
  | nil => rfl
  | cons p rest ih => simp [matSteps, rowSteps_fst, ih]

theorem assembleAB_fst {α : Type} (K : Geometry → ℂ → KernelFns α)
    (g : Geometry) (k : ℂ) (elts : List α) (s : Nat) :
    (assembleAB K g k elts s).1
      = (assembleLoop (K g k).quadH (K g k).selfH elts,
         assembleLoop (K g k).quadG (K g k).selfG elts) := by
  simp [assembleAB, matSteps_fst, assembleLoop]

theorem assembleLoop_length {α : Type} (quad : α → α → ℂ) (self : α → ℂ)
    (elts : List α) : (assembleLoop quad self elts).length = elts.length := by
  simp [assembleLoop]

theorem assembleLoop_row_length {α : Type} (quad : α → α → ℂ) (self : α → ℂ)
    (elts : List α) (i : Fin elts.length) :
    ((assembleLoop quad self elts)[(i : Nat)]?).map List.length
      = some elts.length := by
  simp [assembleLoop, List.getElem?_map, List.getElem?_enum,
    List.getElem?_eq_getElem i.2]

theorem assembleLoop_entry {α : Type} (quad : α → α → ℂ) (self : α → ℂ)
    (elts : List α) (i j : Fin elts.length) :
    entryAt (assembleLoop quad self elts) i j
      = some (if (i : Nat) = (j : Nat) then self (elts.get i)
              else quad (elts.get i) (elts.get j)) := by
  simp [entryAt, assembleLoop, List.getElem?_map, List.getElem?_enum,
    List.getElem?_eq_getElem i.2, List.getElem?_eq_getElem j.2,
    List.get_eq_getElem]

/-- C2: for every element list of length N, wavenumber, and geometry mode, the
assembler computes the entries of both A and B at all N² ordered pairs (i, j)
explicitly — each matrix has N rows of N entries and the (i, j) entry is the
formula for that ordered pair, with no symmetry shortcut — and every diagonal
pair i = j takes the closed-form singular self-term instead of ordinary
quadrature. -/
theorem assembler_computes_all_pairs {α : Type} (K : Geometry → ℂ → KernelFns α)
    (g : Geometry) (k : ℂ) (elts : List α) (s : Nat) :
    (assembleAB K g k elts s).1.1.length = elts.length ∧
    (assembleAB K g k elts s).1.2.length = elts.length ∧
    (∀ i : Fin elts.length,
      ((assembleAB K g k elts s).1.1[(i : Nat)]?).map List.length
        = some elts.length) ∧
    (∀ i : Fin elts.length,
      ((assembleAB K g k elts s).1.2[(i : Nat)]?).map List.length
        = some elts.length) ∧
    (∀ i j : Fin elts.length,
      entryAt (assembleAB K g k elts s).1.1 i j
        = some (if (i : Nat) = (j : Nat) then (K g k).selfH (elts.get i)
                else (K g k).quadH (elts.get i) (elts.get j))) ∧
    (∀ i j : Fin elts.length,
      entryAt (assembleAB K g k elts s).1.2 i j
        = some (if (i : Nat) = (j : Nat) then (K g k).selfG (elts.get i)
                else (K g k).quadG (elts.get i) (elts.get j))) := by
  simp only [assembleAB_fst]
  exact ⟨assembleLoop_length _ _ _, assembleLoop_length _ _ _,
    fun i => assembleLoop_row_length _ _ _ i,
    fun i => assembleLoop_row_length _ _ _ i,
    fun i j => assembleLoop_entry _ _ _ i j,
    fun i j => assembleLoop_entry _ _ _ i j⟩

/-- C3: for a fixed mesh, wavenumber and geometry mode, the assembled matrices
A and B are a pure function of (mesh, k, geometry): two runs of assembly on
equal inputs — started from arbitrary, possibly different, ambient process
states — produce equal matrices, with no dependence on hidden mutable global
state. -/
theorem assembly_pure_function {α : Type} (K : Geometry → ℂ → KernelFns α)
    (g : Geometry) (k : ℂ) (elts : List α) (s₁ s₂ : Nat) :
    (assembleAB K g k elts s₁).1 = (assembleAB K g k elts s₂).1 := by
  rw [assembleAB_fst, assembleAB_fst]

/-- Modelled from the spec: the interior/exterior orientation of a problem,
which fixes the sign convention of the representation formula. -/
inductive ProblemOrientation where
  | interior
  | exterior

/-- Modelled from the spec: the fixed sign attached to each orientation. -/
def orientationSign : ProblemOrientation → ℂ
  | .interior => 1
  | .exterior => -1

/-- Modelled from the spec: the field evaluator's accumulation loop over the
boundary elements, adding each element's contribution
velocity i * ∫G − pressure i * ∫dG/dn to the accumulator. -/
def fieldLoop {n : Nat} (p v gInt hInt : Fin n → ℂ) :
    List (Fin n) → ℂ → ℂ
  | [], acc => acc
  | i :: rest, acc =>
    fieldLoop p v gInt hInt rest (acc + (v i * gInt i - p i * hInt i))

/-- Modelled from the spec: the field evaluator.  Given the solved boundary
pressure and velocity vectors, the per-element integrals of G and dG/dn at a
query point, and the problem orientation, it accumulates the representation
integral over all elements and applies the orientation sign. -/
def fieldPressureAt {n : Nat} {α P : Type} (ori : ProblemOrientation)
    (elts : Fin n → α) (p v : Fin n → ℂ) (intG intH : α → P → ℂ)
    (pt : P) : ℂ :=
  orientationSign ori *
    fieldLoop p v (fun i => intG (elts i) pt) (fun i => intH (elts i) pt)
      (List.finRange n) 0

theorem fieldLoop_eq_sum {n : Nat} (p v gInt hInt : Fin n → ℂ)
    (l : List (Fin n)) (acc : ℂ) :
    fieldLoop p v gInt hInt l acc
      = acc + (l.map fun i => v i * gInt i - p i * hInt i).sum := by
  induction l generalizing acc with
  | nil => simp [fieldLoop]
  | cons i rest ih => rw [fieldLoop, ih]; ring_nf; simp [add_assoc]

/-- C1: for every solved boundary problem and every field point, the field
evaluator returns the pressure given by the representation formula: the sum
over all elements i of velocity i times the integral of G over element i minus
pressure i times the integral of dG/dn over element i, multiplied by the fixed
interior/exterior orientation sign. -/
theorem field_evaluator_representation {n : Nat} {α P : Type}
    (ori : ProblemOrientation) (elts : Fin n → α) (p v : Fin n → ℂ)
    (intG intH : α → P → ℂ) (pt : P) :
    fieldPressureAt ori elts p v intG intH pt
      = orientationSign ori *
          ∑ i, (v i * intG (elts i) pt - p i * intH (elts i) pt) := by
  rw [fieldPressureAt, fieldLoop_eq_sum, zero_add, Fin.sum_univ_def]

/-- Modelled from the spec: the boundary solution's pressure vector — the
prescribed Dirichlet value where pressure is prescribed, the solver's unknown
x i for a Neumann element, and also the solver's unknown for a Robin element
(there the admittance relation, not a direct value, is prescribed). -/
def pressures {n : Nat} (bc : Fin n → BC) (x : Fin n → ℂ) : Fin n → ℂ :=
  fun i =>
    match bc i with
    | .dirichlet p => p
    | .neumann _ => x i
    | .robin _ => x i

/-- Modelled from the spec: the boundary solution's normal-velocity vector —
the prescribed Neumann value where velocity is prescribed, the solver's
unknown x i for a Dirichlet element, and the admittance relation
y · pressure for a Robin element. -/
def velocities {n : Nat} (bc : Fin n → BC) (x : Fin n → ℂ) : Fin n → ℂ :=
  fun i =>
    match bc i with
    | .dirichlet _ => x i
    | .neumann v => v
    | .robin y => y * x i

/-- A concrete Robin/impedance boundary-condition assignment (admittance 2)
for the C5 counterexample and witness. -/
def wRobinBC : Fin 1 → BC := fun _ => BC.robin 2

/-- A concrete Dirichlet boundary-condition assignment for the C5 witness. -/
def wDirBC : Fin 1 → BC := fun _ => BC.dirichlet 5

/-- A concrete solver-unknown vector for the C5 counterexample and witness. -/
def wX : Fin 1 → ℂ := fun _ => 7

/-- Counterexample to C5 as stated: on an element carrying the spec data
model's Robin/impedance condition, neither pressure nor velocity equals a
value prescribed by the boundary condition (the admittance relation is
prescribed instead), so the exactly-one-prescribed alternative is false for
this concrete boundary solution. -/
theorem boundary_solution_exactly_one_counterexample :
    ¬ Xor'
      (∃ p, wRobinBC 0 = BC.dirichlet p ∧ pressures wRobinBC wX 0 = p ∧
        velocities wRobinBC wX 0 = wX 0)
      (∃ v, wRobinBC 0 = BC.neumann v ∧ velocities wRobinBC wX 0 = v ∧
        pressures wRobinBC wX 0 = wX 0) := by
  rintro (⟨⟨p, hp, -⟩, -⟩ | ⟨⟨v, hv, -⟩, -⟩)
  · exact BC.noConfusion hp
  · exact BC.noConfusion hv

/-- C5 (amended): in every boundary solution, for every element i whose
boundary condition is Dirichlet or Neumann, exactly one of the pair
(pressure i, velocity i) equals the value prescribed by that element's
boundary condition and the other component is the solver's unknown; for an
element with the Robin/impedance condition neither component is directly
prescribed — the pressure is the solver's unknown and the velocity is
determined by the admittance relation velocity = y · pressure. -/
theorem boundary_solution_prescription_cases {n : Nat} (bc : Fin n → BC)
    (x : Fin n → ℂ) (i : Fin n) :
    (isRobin (bc i) = false →
      Xor'
        (∃ p, bc i = BC.dirichlet p ∧ pressures bc x i = p ∧
          velocities bc x i = x i)
        (∃ v, bc i = BC.neumann v ∧ velocities bc x i = v ∧
          pressures bc x i = x i)) ∧
    ∀ y, bc i = BC.robin y →
      pressures bc x i = x i ∧ velocities bc x i = y * x i := by
  constructor
  · intro hnr
    cases h : bc i with
    | dirichlet p =>
      refine Or.inl ⟨⟨p, rfl, ?_, ?_⟩, ?_⟩
      · simp [pressures, h]
      · simp [velocities, h]
      · rintro ⟨v, hv, -⟩
        exact BC.noConfusion hv
    | neumann v =>
      refine Or.inr ⟨⟨v, rfl, ?_, ?_⟩, ?_⟩
      · simp [velocities, h]
      · simp [pressures, h]
      · rintro ⟨p, hp, -⟩
        exact BC.noConfusion hp
    | robin y =>
      rw [h] at hnr
      simp [isRobin] at hnr
  · intro y hy
    exact ⟨by simp [pressures, hy], by simp [velocities, hy]⟩

/-- Witness for C5 (amended): the theorem applied to a concrete Dirichlet
element (discharging the non-Robin hypothesis) and to a concrete Robin
element (discharging the admittance hypothesis). -/
theorem boundary_solution_prescription_cases_witness :
    isRobin (wDirBC 0) = false ∧
    Xor'
      (∃ p, wDirBC 0 = BC.dirichlet p ∧ pressures wDirBC wX 0 = p ∧
        velocities wDirBC wX 0 = wX 0)
      (∃ v, wDirBC 0 = BC.neumann v ∧ velocities wDirBC wX 0 = v ∧
        pressures wDirBC wX 0 = wX 0) ∧
    wRobinBC 0 = BC.robin 2 ∧
    (pressures wRobinBC wX 0 = wX 0 ∧ velocities wRobinBC wX 0 = 2 * wX 0) :=
  ⟨rfl,
    (boundary_solution_prescription_cases wDirBC wX 0).1 rfl,
    rfl,
    (boundary_solution_prescription_cases wRobinBC wX 0).2 2 rfl⟩

/-- Modelled from the spec: the assembled dense matrix as a function of the
ordered index pair — the closed-form singular self-term on the diagonal and
the ordinary quadrature entry off it (the matrix-level view of the double
loop). -/
def assembleMatrix {n : Nat} {α : Type} (quad : α → α → ℂ) (self : α → ℂ)
    (elts : Fin n → α) : Matrix (Fin n) (Fin n) ℂ :=
  Matrix.of fun i j => if i = j then self (elts i) else quad (elts i) (elts j)

/-- Modelled from the spec: folding boundary conditions into the collocation
identity (sum over j of A i j * pressure j − B i j * velocity j = 0).  The
column of each element keeps the coefficient of its unknown: −B i j where
pressure is prescribed (velocity unknown), A i j where velocity is prescribed
(pressure unknown), and A i j − y · B i j for a Robin column after
substituting the admittance relation velocity = y · pressure (pressure
unknown). -/
def systemMatrix {n : Nat} (A B : Matrix (Fin n) (Fin n) ℂ)
    (bc : Fin n → BC) : Matrix (Fin n) (Fin n) ℂ :=
  Matrix.of fun i j =>
    match bc j with
    | .dirichlet _ => -(B i j)
    | .neumann _ => A i j
    | .robin y => A i j - y * B i j

/-- Modelled from the spec: the right-hand side after moving each prescribed
quantity's column contribution across the equation; a Robin column prescribes
no value, so it contributes nothing. -/
def rhsVec {n : Nat} (A B : Matrix (Fin n) (Fin n) ℂ) (bc : Fin n → BC)
    (i : Fin n) : ℂ :=
  ((List.finRange n).map fun j =>
    match bc j with
    | .dirichlet p => -(A i j * p)
    | .neumann v => B i j * v
    | .robin _ => 0).sum

theorem rhsVec_eq_sum {n : Nat} (A B : Matrix (Fin n) (Fin n) ℂ)
    (bc : Fin n → BC) (i : Fin n) :
    rhsVec A B bc i
      = ∑ j, match bc j with
        | BC.dirichlet p => -(A i j * p)
        | BC.neumann v => B i j * v
        | BC.robin _ => 0 :=
  (Fin.sum_univ_def _).symm

theorem assembleMatrix_perm {n : Nat} {α : Type} (quad : α → α → ℂ)
    (self : α → ℂ) (elts : Fin n → α) (σ : Equiv.Perm (Fin n)) :
    assembleMatrix quad self (elts ∘ σ)
      = (assembleMatrix quad self elts).submatrix σ σ := by
  ext i j
  simp [assembleMatrix, Matrix.submatrix_apply, Function.comp,
    EmbeddingLike.apply_eq_iff_eq]

theorem systemMatrix_perm {n : Nat} (A B : Matrix (Fin n) (Fin n) ℂ)
    (bc : Fin n → BC) (σ : Equiv.Perm (Fin n)) :
    systemMatrix (A.submatrix σ σ) (B.submatrix σ σ) (bc ∘ σ)
      = (systemMatrix A B bc).submatrix σ σ := by
  ext i j
  cases h : bc (σ j) <;>
    simp [systemMatrix, Matrix.submatrix_apply, Function.comp, h]

theorem rhsVec_perm {n : Nat} (A B : Matrix (Fin n) (Fin n) ℂ)
    (bc : Fin n → BC) (σ : Equiv.Perm (Fin n)) :
    rhsVec (A.submatrix σ σ) (B.submatrix σ σ) (bc ∘ σ)
      = (rhsVec A B bc) ∘ σ := by
  funext i
  rw [Function.comp_apply, rhsVec_eq_sum, rhsVec_eq_sum]
  simp only [Function.comp_apply, Matrix.submatrix_apply]
  exact Fintype.sum_equiv σ _ _ fun j => rfl

/-- C4: for every valid problem instance and every permutation of its element
list (with boundary conditions permuted consistently), assembling and solving
the permuted instance yields the same boundary solution as permuting the
boundary solution of the original instance.  Validity is the hypothesis hL
that the assembled and condition-folded system has a left inverse; hx and hxp
say that x and xp solve the original and the permuted linear system. -/
theorem solution_permutation_equivariant {n : Nat} {α : Type}
    (quadH quadG : α → α → ℂ) (selfH selfG : α → ℂ)
    (elts : Fin n → α) (bc : Fin n → BC) (σ : Equiv.Perm (Fin n))
    (L : Matrix (Fin n) (Fin n) ℂ) (x xp : Fin n → ℂ)
    (hL : L * systemMatrix (assembleMatrix quadH selfH elts)
            (assembleMatrix quadG selfG elts) bc = 1)
    (hx : (systemMatrix (assembleMatrix quadH selfH elts)
            (assembleMatrix quadG selfG elts) bc).mulVec x
          = rhsVec (assembleMatrix quadH selfH elts)
              (assembleMatrix quadG selfG elts) bc)
    (hxp : (systemMatrix
              (assembleMatrix quadH selfH (elts ∘ σ))
              (assembleMatrix quadG selfG (elts ∘ σ)) (bc ∘ σ)).mulVec xp
          = rhsVec (assembleMatrix quadH selfH (elts ∘ σ))
              (assembleMatrix quadG selfG (elts ∘ σ)) (bc ∘ σ)) :
    pressures (bc ∘ σ) xp = (pressures bc x) ∘ σ ∧
    velocities (bc ∘ σ) xp = (velocities bc x) ∘ σ := by
  set A := assembleMatrix quadH selfH elts with hAdef
  set B := assembleMatrix quadG selfG elts with hBdef
  rw [assembleMatrix_perm, assembleMatrix_perm, ← hAdef, ← hBdef,
    systemMatrix_perm, rhsVec_perm] at hxp
  have hxσ : ((systemMatrix A B bc).submatrix σ σ).mulVec (x ∘ σ)
      = (rhsVec A B bc) ∘ σ := by
    rw [Matrix.submatrix_mulVec_equiv]
    have hcomp : (x ∘ σ) ∘ σ.symm = x := by
      funext i; simp
    rw [hcomp, hx]
  have hLp : (L.submatrix σ σ) * ((systemMatrix A B bc).submatrix σ σ)
      = 1 := by
    rw [Matrix.submatrix_mul_equiv, hL, Matrix.submatrix_one_equiv]
  have e1 : (L.submatrix σ σ).mulVec
      (((systemMatrix A B bc).submatrix σ σ).mulVec xp) = xp := by
    rw [Matrix.mulVec_mulVec, hLp, Matrix.one_mulVec]
  have e2 : (L.submatrix σ σ).mulVec
      (((systemMatrix A B bc).submatrix σ σ).mulVec (x ∘ σ)) = x ∘ σ := by
    rw [Matrix.mulVec_mulVec, hLp, Matrix.one_mulVec]
  have hxpx : xp = x ∘ σ := by
    rw [← e1, ← e2, hxp, hxσ]
  constructor
  · funext i
    cases h : bc (σ i) <;>
      simp [pressures, Function.comp, h, hxpx]
  · funext i
    cases h : bc (σ i) <;>
      simp [velocities, Function.comp, h, hxpx]

/-- The trivial two-element mesh used to witness the permutation theorem. -/
def wElts : Fin 2 → Unit := fun _ => ()

/-- A concrete quadrature entry function for the witness. -/
def wQuad : Unit → Unit → ℂ := fun _ _ => 0

/-- A concrete singular self-term function for the witness. -/
def wSelf : Unit → ℂ := fun _ => 1

/-- A concrete all-Neumann boundary-condition assignment for the witness. -/
def wBC : Fin 2 → BC := fun _ => BC.neumann 0

/-- Witness for C4: the permutation-equivariance theorem applied to a concrete
two-element instance with the swap permutation, the identity left inverse, and
the zero solution vectors. -/
theorem solution_permutation_equivariant_witness :
    ((1 : Matrix (Fin 2) (Fin 2) ℂ)
        * systemMatrix (assembleMatrix wQuad wSelf wElts)
            (assembleMatrix wQuad wSelf wElts) wBC = 1) ∧
    ((systemMatrix (assembleMatrix wQuad wSelf wElts)
        (assembleMatrix wQuad wSelf wElts) wBC).mulVec (fun _ => 0)
      = rhsVec (assembleMatrix wQuad wSelf wElts)
          (assembleMatrix wQuad wSelf wElts) wBC) ∧
    ((systemMatrix
        (assembleMatrix wQuad wSelf
          (wElts ∘ Equiv.swap 0 1))
        (assembleMatrix wQuad wSelf (wElts ∘ Equiv.swap 0 1))
        (wBC ∘ Equiv.swap 0 1)).mulVec (fun _ => 0)
      = rhsVec (assembleMatrix wQuad wSelf
            (wElts ∘ Equiv.swap 0 1))
          (assembleMatrix wQuad wSelf (wElts ∘ Equiv.swap 0 1))
          (wBC ∘ Equiv.swap 0 1)) ∧
    (pressures (wBC ∘ Equiv.swap 0 1) (fun _ => 0)
        = (pressures wBC (fun _ => 0)) ∘ Equiv.swap 0 1 ∧
      velocities (wBC ∘ Equiv.swap 0 1) (fun _ => 0)
        = (velocities wBC (fun _ => 0)) ∘ Equiv.swap 0 1) := by
  have h1 : (1 : Matrix (Fin 2) (Fin 2) ℂ)
      * systemMatrix (assembleMatrix wQuad wSelf wElts)
          (assembleMatrix wQuad wSelf wElts) wBC = 1 := by
    rw [one_mul]
    ext i j
    simp [systemMatrix, assembleMatrix, wBC, wQuad, wSelf, Matrix.one_apply]
  have h2 : (systemMatrix (assembleMatrix wQuad wSelf wElts)
      (assembleMatrix wQuad wSelf wElts) wBC).mulVec (fun _ => 0)
      = rhsVec (assembleMatrix wQuad wSelf wElts)
          (assembleMatrix wQuad wSelf wElts) wBC := by
    funext i
    rw [rhsVec_eq_sum]
    simp [Matrix.mulVec, Matrix.dotProduct, wBC]
  have h3 : (systemMatrix
      (assembleMatrix wQuad wSelf (wElts ∘ Equiv.swap 0 1))
      (assembleMatrix wQuad wSelf (wElts ∘ Equiv.swap 0 1))
      (wBC ∘ Equiv.swap 0 1)).mulVec (fun _ => 0)
      = rhsVec (assembleMatrix wQuad wSelf
            (wElts ∘ Equiv.swap 0 1))
          (assembleMatrix wQuad wSelf (wElts ∘ Equiv.swap 0 1))
          (wBC ∘ Equiv.swap 0 1) := by
    funext i
    rw [rhsVec_eq_sum]
    simp [Matrix.mulVec, Matrix.dotProduct, wBC, Function.comp]
  exact ⟨h1, h2, h3,
    solution_permutation_equivariant wQuad wQuad wSelf wSelf wElts wBC
      (Equiv.swap 0 1) 1 (fun _ => 0) (fun _ => 0) h1 h2 h3⟩

/-- Modelled from the spec: a planar vertex position (exact rational
coordinates standing for the real coordinates supplied by the mesh
collaborator). -/
abbrev Vec2 := ℚ × ℚ

/-- Modelled from the spec: a spatial vertex position. -/
abbrev Vec3 := ℚ × ℚ × ℚ

/-- Modelled from the spec: a boundary element — a two-vertex line element
(2D) or a three-vertex triangle element (3D). -/
inductive Element where
  | line (a b : Vec2)
  | tri (a b c : Vec3)

/-- Componentwise difference of spatial vectors. -/
def sub3 (p q : Vec3) : Vec3 :=
  (p.1 - q.1, p.2.1 - q.2.1, p.2.2 - q.2.2)

/-- Cross product of spatial vectors; its squared norm is proportional to the
squared area of the triangle spanned by the factors. -/
def cross3 (u w : Vec3) : Vec3 :=
  (u.2.1 * w.2.2 - u.2.2 * w.2.1,
   u.2.2 * w.1 - u.1 * w.2.2,
   u.1 * w.2.1 - u.2.1 * w.1)

/-- Squared euclidean norm of a spatial vector. -/
def sqNorm3 (u : Vec3) : ℚ := u.1 ^ 2 + u.2.1 ^ 2 + u.2.2 ^ 2

/-- Squared length of a line element (its measure, squared). -/
def sqLength (a b : Vec2) : ℚ := (b.1 - a.1) ^ 2 + (b.2 - a.2) ^ 2

/-- Modelled from the spec: a degenerate element — zero length or area, or
repeated vertices. -/
def degenerate : Element → Bool
  | .line a b => decide (a = b) || decide (sqLength a b = 0)
  | .tri a b c =>
    decide (a = b) || decide (b = c) || decide (a = c) ||
      decide (sqNorm3 (cross3 (sub3 b a) (sub3 c a)) = 0)

/-- Modelled from the spec: the fatal input-validation failures of the core,
surfaced to the caller. -/
inductive CoreError where
  | degenerateElement (idx : Nat)
  | mismatchedBCCount

/-- Modelled from the spec: the core's entry point for assembly.  The mesh is
validated first: a degenerate element is a fatal input-validation failure
surfaced to the caller (carrying the offending index), as is a mismatched
boundary-condition count; only a fully valid input proceeds to assembly, so no
partial computation is produced on an error. -/
def runCore (K : Geometry → ℂ → KernelFns Element) (g : Geometry) (k : ℂ)
    (elts : List Element) (bcs : List BC) (s : Nat) :
    Except CoreError ((List (List ℂ) × List (List ℂ)) × Nat) :=
  if elts.any degenerate then
    .error (.degenerateElement (elts.findIdx degenerate))
  else if bcs.length ≠ elts.length then
    .error .mismatchedBCCount
  else
    .ok (assembleAB K g k elts s)

/-- C6: for every input mesh containing a degenerate element (zero length or
area, or repeated vertices), the core fails with a fatal input-validation
error surfaced to the caller — the run returns exactly the validation error,
so no partial computation proceeds and the element is never silently
skipped. -/
theorem degenerate_element_is_fatal (K : Geometry → ℂ → KernelFns Element)
    (g : Geometry) (k : ℂ) (elts : List Element) (bcs : List BC) (s : Nat)
    (hdeg : ∃ e ∈ elts, degenerate e = true) :
    runCore K g k elts bcs s
      = .error (.degenerateElement (elts.findIdx degenerate)) := by
  have hany : elts.any degenerate = true := List.any_eq_true.mpr hdeg
  rw [runCore, if_pos hany]

/-- A concrete trivial kernel-function family for the degenerate-mesh
witness. -/
def wKernel : Geometry → ℂ → KernelFns Element :=
  fun _ _ => ⟨fun _ _ => 0, fun _ _ => 0, fun _ => 0, fun _ => 0⟩

/-- Witness for C6: a one-element mesh whose single line element has repeated
vertices (hence zero length) makes the core fail with the input-validation
error. -/
theorem degenerate_element_is_fatal_witness :
    (∃ e ∈ [Element.line (0, 0) (0, 0)], degenerate e = true) ∧
    runCore wKernel Geometry.twoDim 1 [Element.line (0, 0) (0, 0)] [] 0
      = .error (.degenerateElement
          ([Element.line (0, 0) (0, 0)].findIdx degenerate)) :=
  ⟨by decide, degenerate_element_is_fatal wKernel Geometry.twoDim 1
    [Element.line (0, 0) (0, 0)] [] 0 (by decide)⟩

/-- Modelled from the spec: the 3D free-space Green function of the Helmholtz
operator, G(r) = exp(i k r) / (4 π r), as a function of the source-target
distance r. -/
noncomputable def greenG3D (k : ℂ) (r : ℝ) : ℂ :=
  Complex.exp (Complex.I * k * r) / (4 * (Real.pi : ℂ) * (r : ℂ))

/-- Modelled from the spec: the analytic radial derivative dG/dr of the 3D
Green function, exp(i k r) (i k r − 1) / (4 π r²). -/
noncomputable def greenG3Dderiv (k : ℂ) (r : ℝ) : ℂ :=
  Complex.exp (Complex.I * k * r) * (Complex.I * k * r - 1)
    / (4 * (Real.pi : ℂ) * (r : ℂ) ^ 2)

/-- Modelled from the spec: the kernel's normal-derivative output — the chain
rule dG/dn = (dr/dn) · dG/dr taken analytically with respect to the normal at
the integration variable, where drdn is the derivative of the distance along
the normal direction. -/
noncomputable def greenG3Ddn (k : ℂ) (r : ℝ) (drdn : ℝ) : ℂ :=
  drdn • greenG3Dderiv k r

theorem hasDerivAt_greenG3D (k : ℂ) (r : ℝ) (hr : r ≠ 0) :
    HasDerivAt (greenG3D k) (greenG3Dderiv k r) r := by
  have hofReal : HasDerivAt (fun t : ℝ => (t : ℂ)) 1 r :=
    Complex.ofRealCLM.hasDerivAt
  have hlin : HasDerivAt (fun t : ℝ => Complex.I * k * (t : ℂ))
      (Complex.I * k) r := by
    simpa using hofReal.const_mul (Complex.I * k)
  have hexp : HasDerivAt (fun t : ℝ => Complex.exp (Complex.I * k * (t : ℂ)))
      (Complex.exp (Complex.I * k * (r : ℂ)) * (Complex.I * k)) r := hlin.cexp
  have hden : HasDerivAt (fun t : ℝ => 4 * (Real.pi : ℂ) * (t : ℂ))
      (4 * (Real.pi : ℂ)) r := by
    simpa using hofReal.const_mul (4 * (Real.pi : ℂ))
  have hpi : (Real.pi : ℂ) ≠ 0 := Complex.ofReal_ne_zero.mpr Real.pi_ne_zero
  have hrC : (r : ℂ) ≠ 0 := Complex.ofReal_ne_zero.mpr hr
  have hden0 : 4 * (Real.pi : ℂ) * (r : ℂ) ≠ 0 :=
    mul_ne_zero (mul_ne_zero (by norm_num) hpi) hrC
  have h := hexp.div hden hden0
  have hval : (Complex.exp (Complex.I * k * (r : ℂ)) * (Complex.I * k)
        * (4 * (Real.pi : ℂ) * (r : ℂ))
      - Complex.exp (Complex.I * k * (r : ℂ)) * (4 * (Real.pi : ℂ)))
        / (4 * (Real.pi : ℂ) * (r : ℂ)) ^ 2
      = greenG3Dderiv k r := by
    rw [greenG3Dderiv]
    field_simp
    ring
  rw [hval] at h
  exact h

/-- C7: for every wavenumber k and every point moving along a path ρ whose
distance to the source stays positive at the probed instant, the kernel
evaluator's 3D output is the Green function G(r) = exp(i k r) / (4 π r), and
the normal-derivative value it returns — dG/dn = (dr/dn) · dG/dr — is the
analytic derivative of G along the path (the gradient taken with respect to
the normal direction at the integration variable when ρ moves along that
normal). -/
theorem kernel3D_green_and_normal_derivative (k : ℂ) (ρ : ℝ → ℝ)
    (t drdn : ℝ) (hρ : HasDerivAt ρ drdn t) (hr : 0 < ρ t) :
    greenG3D k (ρ t)
      = Complex.exp (Complex.I * k * (ρ t : ℝ))
          / (4 * (Real.pi : ℂ) * ((ρ t : ℝ) : ℂ)) ∧
    HasDerivAt (fun s => greenG3D k (ρ s)) (greenG3Ddn k (ρ t) drdn) t := by
  constructor
  · rfl
  · have hg := hasDerivAt_greenG3D k (ρ t) (ne_of_gt hr)
    simpa [Function.comp, greenG3Ddn] using hg.scomp t hρ

/-- Witness for C7: the kernel theorem applied at unit wavenumber along the
identity path at distance one. -/
theorem kernel3D_green_witness :
    HasDerivAt (fun s : ℝ => s) 1 1 ∧ (0 : ℝ) < 1 ∧
    (greenG3D 1 1
        = Complex.exp (Complex.I * 1 * ((1 : ℝ) : ℂ))
            / (4 * (Real.pi : ℂ) * ((1 : ℝ) : ℂ)) ∧
      HasDerivAt (fun s : ℝ => greenG3D 1 s) (greenG3Ddn 1 1 1) 1) :=
  ⟨hasDerivAt_id' 1, one_pos,
    kernel3D_green_and_normal_derivative 1 (fun s => s) 1 1
      (hasDerivAt_id' 1) one_pos⟩

/-- C8: if opening or reading README.md fails, the packaging script raises
before setup() is ever invoked: the run's result is exactly that error, so no
package configuration, extension registration, or metadata is produced on the
error path. -/
theorem readme_failure_precedes_setup (e : ReadErr) :
    runSetupScript (.error e) = .error e :=
  rfl

/-- C9: whenever setup() is invoked by the packaging script, its
long_description argument is exactly the full text read from README.md and its
long_description_content_type argument is the string text/markdown. -/
theorem setup_long_description_from_readme (s : String) :
    (runSetupScript (.ok s)).map SetupArgs.long_description = .ok s ∧
    (runSetupScript (.ok s)).map SetupArgs.long_description_content_type
      = .ok "text/markdown" :=
  ⟨rfl, rfl⟩

/-- C10: on every run of the packaging script, the setup() call receives the
constant configuration packages = [abem] and ext_modules containing exactly
the one Extension named intops with sources [intops/intops.c] and language c,
independently of the README text read as input. -/
theorem setup_constant_configuration (s : String) :
    (runSetupScript (.ok s)).map SetupArgs.packages = .ok ["abem"] ∧
    (runSetupScript (.ok s)).map SetupArgs.ext_modules = .ok [intops] ∧
    intops.name = "intops" ∧
    intops.sources = ["intops/intops.c"] ∧
    intops.language = "c" :=
  ⟨rfl, rfl, rfl, rfl, rfl⟩
